import Mathlib

/-!
Shallow embedding of `src/posix/platform/secure_settings.cpp`.

The on-disk store is modelled as a `List Nat` of bytes.  A record is
`{key : u16, length : u16, value : length bytes}` with the two 16-bit header
fields laid out in little-endian host order.  The POSIX file primitives are
modelled as an ideal regular file: `read` returns `min requested remaining`
bytes, `write` to the swap file always writes everything, and `lseek` may
position past end-of-file.  The uninitialised on-stack copy buffer of
`otPosixSecureSettingsDelete` is modelled by one arbitrary stale byte value
`junk`: a chunk write emits the bytes actually read followed by stale bytes
for the part of the chunk a short read did not refresh.

The scan loops recurse on an explicit fuel argument so that all definitions
are structurally recursive and computable by `decide`; every public wrapper
passes `file.length` as fuel, which is an upper bound on the number of loop
iterations (each iteration consumes at least the four header bytes).
-/

/-- Return statuses produced by the embedded operations. -/
inductive OtError where
  | NONE
  | NOT_FOUND
deriving DecidableEq, Repr

/-- Outcome of the rewrite loop of `otPosixSecureSettingsDelete`: the loop
either runs to completion and falls through to `fsync`/`close`/`rename`
(installing the swap file as the live store), or a failing `VerifyOrExit`
jumps to the `exit` label before the rename (leaving the live store as it
was). -/
inductive DeleteOutcome where
  | completed (error : OtError) (swap : List Nat)
  | aborted (error : OtError)
deriving DecidableEq, Repr

/-- The two bytes a `uint16_t` occupies in memory (little-endian host order). -/
def enc16 (n : Nat) : List Nat := [n % 256, n / 256 % 256]

/-- Reassembling a `uint16_t` from the two bytes `read` places in memory. -/
def dec16 (lo hi : Nat) : Nat := lo % 256 + 256 * (hi % 256)

/-- Byte encoding of one record exactly as `otPosixSecureSettingsSet` emits it:
the key, then the value length, then the value bytes (source lines 156-158). -/
def encodeRecord (aKey : Nat) (aValue : List Nat) : List Nat :=
  enc16 aKey ++ enc16 aValue.length ++ aValue

/-- Concatenated byte encoding of a sequence of records: the on-disk store
layout. -/
def encodeRecords : List (Nat × List Nat) → List Nat
  | [] => []
  | (k, v) :: rs => encodeRecord k v ++ encodeRecords rs

/-- One pass of the header/payload scan, decoding records until the bytes run
out or a record's declared length overruns the remaining bytes.  This is the
pure rendering of the scan loop shared by `Get`, `Delete` and `Init`. -/
def parseAux (fuel : Nat) (bytes : List Nat) : List (Nat × List Nat) :=
  match fuel, bytes with
  | fuel + 1, k0 :: k1 :: l0 :: l1 :: tail =>
      let len := dec16 l0 l1
      if len ≤ tail.length then
        (dec16 k0 k1, tail.take len) :: parseAux fuel (tail.drop len)
      else []
  | _, _ => []

/-- The record sequence a store's bytes denote. -/
def parseRecords (bytes : List Nat) : List (Nat × List Nat) :=
  parseAux bytes.length bytes

/-- The scan loop of `otPosixSecureSettingsGet` (source lines 92-132).
`rest` is the part of the file from the current offset to end-of-file;
`aValue` records whether the destination buffer pointer is non-null and
`aValueLength` holds the pointed-to capacity (`none` models a null pointer).
The result is the returned status, the final contents of `*aValueLength`,
and the bytes copied into the destination buffer. -/
def getAux (aKey : Nat) (fuel : Nat) (aIndex : Int) (aValue : Bool)
    (aValueLength : Option Nat) (rest : List Nat) :
    OtError × Option Nat × List Nat :=
  match fuel, rest with
  | fuel + 1, k0 :: k1 :: l0 :: l1 :: tail =>
      let key := dec16 k0 k1
      let len := dec16 l0 l1
      if key = aKey then
        if aIndex = 0 then
          match aValueLength with
          | none => (OtError.NONE, none, [])
          | some cap =>
            if aValue then
              let readLength := min len cap
              if tail.length < readLength then
                -- short payload read: VerifyOrExit jumps to exit with the
                -- NONE status already set and *aValueLength untouched
                (OtError.NONE, some cap, tail)
              else
                (OtError.NONE, some len, tail.take readLength)
            else (OtError.NONE, some len, [])
        else getAux aKey fuel (aIndex - 1) aValue aValueLength (tail.drop len)
      else getAux aKey fuel aIndex aValue aValueLength (tail.drop len)
  | _, _ => (OtError.NOT_FOUND, aValueLength, [])

/-- `otPosixSecureSettingsGet` on a store whose bytes are `file`. -/
def otPosixSecureSettingsGet (file : List Nat) (aKey : Nat) (aIndex : Int)
    (aValue : Bool) (aValueLength : Option Nat) :
    OtError × Option Nat × List Nat :=
  getAux aKey file.length aIndex aValue aValueLength file

/-- The bounded-buffer payload copy of `otPosixSecureSettingsDelete` (source
lines 228-239): move `len` payload bytes from the live store to the swap file
in chunks of at most 512 bytes.  A read returning zero bytes aborts; a short
but non-empty read passes the `rval > 0` check and the following write still
emits `count` bytes, the unread part coming from the stale buffer (`junk`).
Returns the new swap contents and the remaining input stream, or `none` when
the copy aborted. -/
def copyAux (junk : Nat) (cfuel len : Nat) (stream swap : List Nat) :
    Option (List Nat × List Nat) :=
  match cfuel, len with
  | _, 0 => some (swap, stream)
  | cfuel + 1, len + 1 =>
      let count := if 512 ≤ len + 1 then 512 else len + 1
      let rval := min count stream.length
      if rval = 0 then none
      else
        copyAux junk cfuel (len + 1 - count) (stream.drop rval)
          (swap ++ (stream.take rval ++ List.replicate (count - rval) junk))
  | 0, _ + 1 => none

/-- The rewrite loop of `otPosixSecureSettingsDelete` (source lines 188-240).
Matching records whose occurrence countdown has reached `0` (or with
`aIndex = -1`) are skipped via `lseek`; every other record is copied to the
swap file; a short header read or an empty payload read jumps to `exit`. -/
def deleteAux (junk aKey : Nat) (fuel : Nat) (aIndex : Int) (error : OtError)
    (swap rest : List Nat) : DeleteOutcome :=
  match fuel, rest with
  | _, [] => DeleteOutcome.completed error swap
  | fuel + 1, k0 :: k1 :: l0 :: l1 :: tail =>
      let key := dec16 k0 k1
      let len := dec16 l0 l1
      if aKey = key ∧ (aIndex = 0 ∨ aIndex = -1) then
        deleteAux junk aKey fuel aIndex OtError.NONE swap (tail.drop len)
      else
        let aIndex' := if aKey = key then aIndex - 1 else aIndex
        match copyAux junk len len tail (swap ++ enc16 key ++ enc16 len) with
        | none => DeleteOutcome.aborted error
        | some (swap', rest') => deleteAux junk aKey fuel aIndex' error swap' rest'
  | _, _ => DeleteOutcome.aborted error

/-- `otPosixSecureSettingsDelete` on a store whose bytes are `file`: on loop
completion the swap file is flushed and renamed over the live store; on an
abort the live store keeps its old bytes. -/
def otPosixSecureSettingsDelete (junk : Nat) (file : List Nat) (aKey : Nat)
    (aIndex : Int) : OtError × List Nat :=
  match deleteAux junk aKey file.length aIndex OtError.NOT_FOUND [] file with
  | DeleteOutcome.completed error swap => (error, swap)
  | DeleteOutcome.aborted error => (error, file)

/-- The chunked payload copy with a fallible swap file.  `wrem` is the number
of bytes the swap file can still accept before writes come up short (the
model of `write` transferring fewer bytes than requested, e.g. on a full
filesystem): a write of `count` bytes transfers `min count wrem` bytes, and
`VerifyOrExit(rval == count)` (source line 236) jumps to `exit` when the
transfer was short.  With enough remaining capacity this is exactly
`copyAux` (`copyAuxF_ample`). -/
def copyAuxF (junk : Nat) (cfuel len : Nat) (stream swap : List Nat)
    (wrem : Nat) : Option (List Nat × List Nat × Nat) :=
  match cfuel, len with
  | _, 0 => some (swap, stream, wrem)
  | cfuel + 1, len + 1 =>
      let count := if 512 ≤ len + 1 then 512 else len + 1
      let rval := min count stream.length
      if rval = 0 then none
      else
        if min count wrem = count then
          copyAuxF junk cfuel (len + 1 - count) (stream.drop rval)
            (swap ++ (stream.take rval ++ List.replicate (count - rval) junk))
            (wrem - count)
        else none
  | 0, _ + 1 => none

/-- The delete rewrite loop with a fallible swap file: the two header writes
(source lines 222-226) and the chunk writes are each checked against the
requested byte count, and any short write jumps to `exit` — before the
rename.  `deleteAux` is this loop run in an environment with ample remaining
capacity (`deleteAuxF_ample`). -/
def deleteAuxF (junk aKey : Nat) (fuel : Nat) (aIndex : Int) (error : OtError)
    (swap rest : List Nat) (wrem : Nat) : DeleteOutcome :=
  match fuel, rest with
  | _, [] => DeleteOutcome.completed error swap
  | fuel + 1, k0 :: k1 :: l0 :: l1 :: tail =>
      let key := dec16 k0 k1
      let len := dec16 l0 l1
      if aKey = key ∧ (aIndex = 0 ∨ aIndex = -1) then
        deleteAuxF junk aKey fuel aIndex OtError.NONE swap (tail.drop len) wrem
      else
        let aIndex' := if aKey = key then aIndex - 1 else aIndex
        if min 2 wrem = 2 then
          if min 2 (wrem - 2) = 2 then
            match copyAuxF junk len len tail (swap ++ enc16 key ++ enc16 len)
                (wrem - 4) with
            | none => DeleteOutcome.aborted error
            | some (swap', rest', wrem') =>
                deleteAuxF junk aKey fuel aIndex' error swap' rest' wrem'
          else DeleteOutcome.aborted error
        else DeleteOutcome.aborted error
  | _, _ => DeleteOutcome.aborted error

/-- `otPosixSecureSettingsDelete` run against a swap file that can accept
only `wrem` more bytes: an abort (any failing `VerifyOrExit`) skips the
rename and the live store keeps its bytes. -/
def otPosixSecureSettingsDeleteF (junk : Nat) (file : List Nat) (aKey : Nat)
    (aIndex : Int) (wrem : Nat) : OtError × List Nat :=
  match deleteAuxF junk aKey file.length aIndex OtError.NOT_FOUND [] file wrem with
  | DeleteOutcome.completed error swap => (error, swap)
  | DeleteOutcome.aborted error => (error, file)

/-- `otPosixSecureSettingsSet` (source lines 138-170): delete every occurrence
of the key, then build a fresh swap file holding only the single new record
and rename it over the live store.  The write of the new record is guarded by
`VerifyOrDie` (process death on failure), so in the model it always succeeds
and the call returns `NONE`. -/
def otPosixSecureSettingsSet (junk : Nat) (file : List Nat) (aKey : Nat)
    (aValue : List Nat) : OtError × List Nat :=
  match (otPosixSecureSettingsDelete junk file aKey (-1)).1 with
  | OtError.NONE => (OtError.NONE, encodeRecord aKey aValue)
  | OtError.NOT_FOUND => (OtError.NONE, encodeRecord aKey aValue)

/-- `otPosixSecureSettingsAdd` (source lines 172-175) forwards to `Set`. -/
def otPosixSecureSettingsAdd (junk : Nat) (file : List Nat) (aKey : Nat)
    (aValue : List Nat) : OtError × List Nat :=
  otPosixSecureSettingsSet junk file aKey aValue

/-- Number of records of a record sequence carrying the given key. -/
def countK (key : Nat) : List (Nat × List Nat) → Nat
  | [] => 0
  | (k, _) :: rs => if k = key then countK key rs + 1 else countK key rs

/-- The value of the `i`-th record (0-based, in file order) carrying the given
key, if it exists. -/
def nthOccurrence (key : Nat) : Nat → List (Nat × List Nat) → Option (List Nat)
  | _, [] => none
  | i, (k, v) :: rs =>
      if k = key then
        if i = 0 then some v else nthOccurrence key (i - 1) rs
      else nthOccurrence key i rs

/-- Record-level effect of the delete loop: drop a matching record once the
countdown is exhausted (and from then on every later match), keep everything
else.  This mirrors the loop's branch structure with the C `aIndex` as an
integer. -/
def keepRecs (aKey : Nat) : Int → List (Nat × List Nat) → List (Nat × List Nat)
  | _, [] => []
  | aIndex, (k, v) :: rs =>
      if aKey = k ∧ (aIndex = 0 ∨ aIndex = -1) then keepRecs aKey aIndex rs
      else (k, v) :: keepRecs aKey (if aKey = k then aIndex - 1 else aIndex) rs

/-- Status accumulated by the delete loop over a record sequence. -/
def delErr (aKey : Nat) : Int → OtError → List (Nat × List Nat) → OtError
  | _, error, [] => error
  | aIndex, error, (k, _) :: rs =>
      if aKey = k ∧ (aIndex = 0 ∨ aIndex = -1) then
        delErr aKey aIndex OtError.NONE rs
      else delErr aKey (if aKey = k then aIndex - 1 else aIndex) error rs

/-- The occurrence countdown left after the delete loop has processed a record
sequence. -/
def residIdx (aKey : Nat) : Int → List (Nat × List Nat) → Int
  | aIndex, [] => aIndex
  | aIndex, (k, _) :: rs =>
      if aKey = k ∧ (aIndex = 0 ∨ aIndex = -1) then residIdx aKey aIndex rs
      else residIdx aKey (if aKey = k then aIndex - 1 else aIndex) rs

/-- Spec-level description of `delete(key, k)` for `k ≥ 0`: keep each record
whose key differs, and keep a record of the key exactly when fewer than `k`
occurrences of the key have been seen before it. -/
def occDeleteAux (key : Nat) (seen k : Nat) :
    List (Nat × List Nat) → List (Nat × List Nat)
  | [] => []
  | (k', v) :: rs =>
      if k' = key then
        if seen < k then (k', v) :: occDeleteAux key (seen + 1) k rs
        else occDeleteAux key (seen + 1) k rs
      else (k', v) :: occDeleteAux key seen k rs

/-- The bounds any parsed record satisfies: a 16-bit key and a 16-bit value
length. -/
def boundedRec (r : Nat × List Nat) : Prop := r.1 < 65536 ∧ r.2.length < 65536

/-- Decoding the two bytes of an in-range 16-bit value gives the value back. -/
theorem dec16_enc16 {n : Nat} (h : n < 65536) :
    dec16 (n % 256) (n / 256 % 256) = n := by
  unfold dec16; omega

theorem dec16_lt (lo hi : Nat) : dec16 lo hi < 65536 := by
  unfold dec16; omega

theorem encodeRecord_eq (k : Nat) (v : List Nat) :
    encodeRecord k v =
      k % 256 :: k / 256 % 256 :: v.length % 256 :: v.length / 256 % 256 :: v := by
  simp [encodeRecord, enc16]

theorem encodeRecord_length (k : Nat) (v : List Nat) :
    (encodeRecord k v).length = 4 + v.length := by
  simp [encodeRecord, enc16]; omega

theorem encodeRecords_cons (k : Nat) (v : List Nat) (rs : List (Nat × List Nat)) :
    encodeRecords ((k, v) :: rs) = encodeRecord k v ++ encodeRecords rs := rfl

theorem length_le_encodeRecords_length (rs : List (Nat × List Nat)) :
    rs.length ≤ (encodeRecords rs).length := by
  induction rs with
  | nil => simp [encodeRecords]
  | cons r rs ih =>
    obtain ⟨k, v⟩ := r
    simp [encodeRecords_cons, encodeRecord_length]
    omega

theorem parseAux_bounded (fuel : Nat) (bytes : List Nat) :
    ∀ r ∈ parseAux fuel bytes, boundedRec r := by
  induction fuel generalizing bytes with
  | zero => intro r hr; simp [parseAux] at hr
  | succ fuel ih =>
    intro r hr
    match bytes with
    | [] => simp [parseAux] at hr
    | [a] => simp [parseAux] at hr
    | [a, b] => simp [parseAux] at hr
    | [a, b, c] => simp [parseAux] at hr
    | k0 :: k1 :: l0 :: l1 :: tail =>
      rw [parseAux] at hr
      by_cases hlen : dec16 l0 l1 ≤ tail.length
      · rw [if_pos hlen] at hr
        rcases List.mem_cons.mp hr with h | h
        · subst h
          refine ⟨dec16_lt _ _, ?_⟩
          simp [List.length_take]
          have := dec16_lt l0 l1
          omega
        · exact ih _ r h
      · rw [if_neg hlen] at hr
        simp at hr

theorem parseRecords_bounded (bytes : List Nat) :
    ∀ r ∈ parseRecords bytes, boundedRec r :=
  parseAux_bounded bytes.length bytes

theorem parseAux_encodeRecords (rs : List (Nat × List Nat)) :
    ∀ fuel, (encodeRecords rs).length ≤ fuel →
    (∀ r ∈ rs, boundedRec r) →
    parseAux fuel (encodeRecords rs) = rs := by
  induction rs with
  | nil =>
    intro fuel _ _
    match fuel with
    | 0 => rfl
    | fuel + 1 => rfl
  | cons r rs ih =>
    intro fuel hfuel hb
    obtain ⟨k, v⟩ := r
    obtain ⟨hk, hv⟩ := hb (k, v) (by simp)
    rw [encodeRecords_cons, encodeRecord_eq] at hfuel ⊢
    simp only [List.cons_append, List.length_cons] at hfuel
    match fuel with
    | 0 => omega
    | fuel + 1 =>
      simp only [parseAux, dec16_enc16 hk, dec16_enc16 hv, List.append_eq]
      have hlen : v.length ≤ (v ++ encodeRecords rs).length := by
        simp
      rw [if_pos hlen]
      rw [List.take_append_of_le_length le_rfl, List.take_length]
      rw [List.drop_append_of_le_length le_rfl, List.drop_length]
      simp only [List.nil_append]
      rw [ih fuel (by simp at hfuel ⊢; omega) (fun r hr => hb r (by simp [hr]))]

theorem parseRecords_encodeRecords (rs : List (Nat × List Nat))
    (hb : ∀ r ∈ rs, boundedRec r) :
    parseRecords (encodeRecords rs) = rs :=
  parseAux_encodeRecords rs _ le_rfl hb

/-- Exact chunked copy: when the declared length fits inside the stream (and
the chunk fuel is adequate), the copy succeeds, appends exactly the payload to
the swap file, and consumes exactly the payload from the stream. -/
theorem copyAux_exact (junk : Nat) :
    ∀ cfuel len stream swap, len ≤ cfuel → len ≤ stream.length →
    copyAux junk cfuel len stream swap =
      some (swap ++ stream.take len, stream.drop len) := by
  intro cfuel
  induction cfuel with
  | zero =>
    intro len stream swap hfuel _
    match len, hfuel with
    | 0, _ => simp [copyAux]
  | succ cfuel ih =>
    intro len stream swap hfuel hlen
    match len with
    | 0 => simp [copyAux]
    | len + 1 =>
      rw [copyAux]
      have hcount : (if 512 ≤ len + 1 then 512 else len + 1) ≤ len + 1 := by
        split <;> omega
      have hcpos : 1 ≤ (if 512 ≤ len + 1 then 512 else len + 1) := by
        split <;> omega
      set count := if 512 ≤ len + 1 then 512 else len + 1 with hc
      have hrval : min count stream.length = count := by omega
      rw [hrval]
      rw [if_neg (by omega)]
      rw [show count - count = 0 from by omega, List.replicate_zero, List.append_nil]
      rw [ih (len + 1 - count) (stream.drop count) (swap ++ stream.take count)
        (by omega) (by simp [List.length_drop]; omega)]
      have ht : stream.take (len + 1) = stream.take count ++ (stream.drop count).take (len + 1 - count) := by
        rw [← List.take_add]
        congr 1
        omega
      have hd : (stream.drop count).drop (len + 1 - count) = stream.drop (len + 1) := by
        rw [List.drop_drop]
        congr 1
        omega
      rw [ht, hd, List.append_assoc]

theorem getAux_nil (aKey fuel : Nat) (aIndex : Int) (av : Bool)
    (avl : Option Nat) :
    getAux aKey fuel aIndex av avl [] = (OtError.NOT_FOUND, avl, []) := by
  cases fuel <;> rfl

theorem getAux_short (aKey fuel : Nat) (aIndex : Int) (av : Bool)
    (avl : Option Nat) (rest : List Nat) (hshort : rest.length < 4) :
    getAux aKey fuel aIndex av avl rest = (OtError.NOT_FOUND, avl, []) := by
  match rest with
  | [] => exact getAux_nil ..
  | [a] => cases fuel <;> rfl
  | [a, b] => cases fuel <;> rfl
  | [a, b, c] => cases fuel <;> rfl
  | a :: b :: c :: d :: t => exact absurd hshort (by simp)

theorem nthOccurrence_eq_none_iff (key : Nat) :
    ∀ (rs : List (Nat × List Nat)) (i : Nat),
    nthOccurrence key i rs = none ↔ countK key rs ≤ i := by
  intro rs
  induction rs with
  | nil => intro i; simp [nthOccurrence, countK]
  | cons r rs ih =>
    intro i
    obtain ⟨k, v⟩ := r
    by_cases hk : k = key
    · simp only [nthOccurrence, countK, if_pos hk]
      by_cases hi : i = 0
      · subst hi; simp
      · rw [if_neg hi, ih (i - 1)]
        omega
    · simp only [nthOccurrence, countK, if_neg hk]
      exact ih i

/-- Master lemma for the `Get` scan: over a well-formed prefix followed by
arbitrary trailing bytes, the scan either finds the requested occurrence
inside the prefix (reporting its true length and copying at most the declared
capacity), or it reaches the trailing bytes with the countdown reduced by the
number of matches seen in the prefix. -/
theorem getAux_split (aKey : Nat) (av : Bool) (cap : Nat) (bad : List Nat) :
    ∀ (rs : List (Nat × List Nat)) (i fuel : Nat),
    (encodeRecords rs ++ bad).length ≤ fuel →
    (∀ r ∈ rs, boundedRec r) →
    getAux aKey fuel (i : Int) av (some cap) (encodeRecords rs ++ bad) =
      (match nthOccurrence aKey i rs with
       | some v =>
           (OtError.NONE, some v.length, if av then v.take (min v.length cap) else [])
       | none =>
           getAux aKey (fuel - rs.length) ((i - countK aKey rs : Nat) : Int) av
             (some cap) bad) := by
  intro rs
  induction rs with
  | nil =>
    intro i fuel hfuel hb
    simp [encodeRecords, nthOccurrence, countK]
  | cons r rs ih =>
    intro i fuel hfuel hb
    obtain ⟨k, v⟩ := r
    obtain ⟨hk, hv⟩ := hb (k, v) (by simp)
    simp only at hk hv
    rw [encodeRecords_cons, encodeRecord_eq] at hfuel ⊢
    simp only [List.cons_append, List.length_cons, List.append_assoc] at hfuel ⊢
    match fuel with
    | 0 => omega
    | fuel + 1 =>
      have hbrs : ∀ r ∈ rs, boundedRec r := fun r hr => hb r (by simp [hr])
      have hfrs : (encodeRecords rs ++ bad).length ≤ fuel := by
        simp at hfuel ⊢; omega
      simp only [getAux, dec16_enc16 hk, dec16_enc16 hv, List.append_eq]
      by_cases hkey : k = aKey
      · rw [if_pos hkey]
        by_cases hi : i = 0
        · subst hi
          rw [if_pos (show ((0 : Nat) : Int) = 0 by norm_num)]
          simp only [nthOccurrence, if_pos hkey, if_pos rfl]
          cases av with
          | false => simp
          | true =>
            simp only [if_pos rfl]
            have hrl : min v.length cap ≤ v.length := min_le_left _ _
            have hnotshort :
                ¬ (v ++ (encodeRecords rs ++ bad)).length < min v.length cap := by
              simp only [List.length_append]
              omega
            rw [if_neg hnotshort,
              List.take_append_of_le_length hrl]
            simp
        · have hne : ((i : Nat) : Int) ≠ 0 := by omega
          rw [if_neg hne]
          have hidx : ((i : Nat) : Int) - 1 = ((i - 1 : Nat) : Int) := by omega
          rw [hidx, List.drop_append_of_le_length le_rfl, List.drop_length,
            List.nil_append, ih (i - 1) fuel hfrs hbrs]
          simp only [nthOccurrence, if_pos hkey, if_neg hi, countK]
          cases hocc : nthOccurrence aKey (i - 1) rs with
          | some v' => simp
          | none =>
            simp only []
            have e1 : fuel + 1 - (rs.length + 1) = fuel - rs.length := by omega
            have e2 : i - (countK aKey rs + 1) = i - 1 - countK aKey rs := by
              omega
            rw [e1, e2]
      · rw [if_neg hkey]
        rw [List.drop_append_of_le_length le_rfl, List.drop_length,
          List.nil_append, ih i fuel hfrs hbrs]
        simp only [nthOccurrence, if_neg hkey, countK]
        cases hocc : nthOccurrence aKey i rs with
        | some v' => simp
        | none =>
          simp only []
          have e1 : fuel + 1 - (rs.length + 1) = fuel - rs.length := by omega
          rw [e1]

theorem deleteAux_nil (junk aKey fuel : Nat) (aIndex : Int) (error : OtError)
    (swap : List Nat) :
    deleteAux junk aKey fuel aIndex error swap [] =
      DeleteOutcome.completed error swap := by
  cases fuel <;> rfl

theorem deleteAux_short (junk aKey fuel : Nat) (aIndex : Int) (error : OtError)
    (swap rest : List Nat) (hne : rest ≠ []) (hshort : rest.length < 4) :
    deleteAux junk aKey fuel aIndex error swap rest =
      DeleteOutcome.aborted error := by
  match rest with
  | [] => exact absurd rfl hne
  | [a] => cases fuel <;> rfl
  | [a, b] => cases fuel <;> rfl
  | [a, b, c] => cases fuel <;> rfl
  | a :: b :: c :: d :: t => exact absurd hshort (by simp)

/-- Master lemma for the delete rewrite loop: over a well-formed prefix
followed by arbitrary trailing bytes, the loop filters the prefix's records
into the swap file exactly as `keepRecs` describes, accumulates the status
`delErr` describes, reduces the occurrence countdown as `residIdx` describes,
and then continues on the trailing bytes. -/
theorem deleteAux_append (junk aKey : Nat) (bad : List Nat) :
    ∀ (rs : List (Nat × List Nat)) (fuel : Nat) (aIndex : Int)
      (error : OtError) (swap : List Nat),
    (encodeRecords rs ++ bad).length ≤ fuel →
    (∀ r ∈ rs, boundedRec r) →
    deleteAux junk aKey fuel aIndex error swap (encodeRecords rs ++ bad) =
      deleteAux junk aKey (fuel - rs.length) (residIdx aKey aIndex rs)
        (delErr aKey aIndex error rs)
        (swap ++ encodeRecords (keepRecs aKey aIndex rs)) bad := by
  intro rs
  induction rs with
  | nil =>
    intro fuel aIndex error swap hfuel hb
    simp [encodeRecords, residIdx, delErr, keepRecs]
  | cons r rs ih =>
    intro fuel aIndex error swap hfuel hb
    obtain ⟨k, v⟩ := r
    obtain ⟨hk, hv⟩ := hb (k, v) (by simp)
    simp only at hk hv
    rw [encodeRecords_cons, encodeRecord_eq] at hfuel ⊢
    simp only [List.cons_append, List.length_cons, List.append_assoc] at hfuel ⊢
    match fuel with
    | 0 => omega
    | fuel + 1 =>
      have hbrs : ∀ r ∈ rs, boundedRec r := fun r hr => hb r (by simp [hr])
      have hfrs : (encodeRecords rs ++ bad).length ≤ fuel := by
        simp at hfuel ⊢; omega
      simp only [deleteAux, dec16_enc16 hk, dec16_enc16 hv, List.append_eq]
      simp only [residIdx, delErr, keepRecs]
      by_cases hC : aKey = k ∧ (aIndex = 0 ∨ aIndex = -1)
      · rw [if_pos hC, if_pos hC, if_pos hC, if_pos hC]
        rw [List.drop_append_of_le_length le_rfl, List.drop_length,
          List.nil_append, ih fuel aIndex OtError.NONE swap hfrs hbrs]
        have e1 : fuel + 1 - (rs.length + 1) = fuel - rs.length := by omega
        rw [e1]
      · rw [if_neg hC, if_neg hC, if_neg hC, if_neg hC]
        rw [copyAux_exact junk v.length v.length _ _ le_rfl (by simp)]
        rw [List.take_append_of_le_length le_rfl, List.take_length,
          List.drop_append_of_le_length le_rfl, List.drop_length,
          List.nil_append]
        dsimp only
        rw [ih fuel _ error _ hfrs hbrs]
        have e1 : fuel + 1 - (rs.length + 1) = fuel - rs.length := by omega
        rw [e1, encodeRecords_cons, encodeRecord_eq]
        simp [enc16, List.append_assoc]

/-- On a well-formed store, `Delete` completes: the loop result is exactly the
`keepRecs` filtering and the `delErr` status, and the swap file is renamed
over the live store. -/
theorem delete_wf (junk : Nat) (s : List Nat) (aKey : Nat) (aIndex : Int)
    (hwf : encodeRecords (parseRecords s) = s) :
    otPosixSecureSettingsDelete junk s aKey aIndex =
      (delErr aKey aIndex OtError.NOT_FOUND (parseRecords s),
       encodeRecords (keepRecs aKey aIndex (parseRecords s))) := by
  unfold otPosixSecureSettingsDelete
  conv_lhs => rw [← hwf]
  rw [← List.append_nil (encodeRecords (parseRecords s))]
  rw [deleteAux_append junk aKey [] (parseRecords s) _ aIndex OtError.NOT_FOUND []
    (by simp) (parseRecords_bounded s)]
  rw [deleteAux_nil, List.nil_append]

/-- On a well-formed store, `Get` returns the requested occurrence's value
(truncated to the destination capacity, reporting the true length), or
`NOT_FOUND` when the occurrence does not exist. -/
theorem get_wf (s : List Nat) (aKey : Nat) (i cap : Nat) (av : Bool)
    (hwf : encodeRecords (parseRecords s) = s) :
    otPosixSecureSettingsGet s aKey (i : Int) av (some cap) =
      (match nthOccurrence aKey i (parseRecords s) with
       | some v =>
           (OtError.NONE, some v.length, if av then v.take (min v.length cap) else [])
       | none => (OtError.NOT_FOUND, some cap, [])) := by
  unfold otPosixSecureSettingsGet
  conv_lhs => rw [← hwf]
  rw [← List.append_nil (encodeRecords (parseRecords s))]
  rw [getAux_split aKey av cap [] (parseRecords s) i _ (by simp)
    (parseRecords_bounded s)]
  cases nthOccurrence aKey i (parseRecords s) with
  | some v => rfl
  | none => rw [getAux_nil]

theorem keepRecs_subset (aKey : Nat) :
    ∀ (rs : List (Nat × List Nat)) (aIndex : Int) (r : Nat × List Nat),
    r ∈ keepRecs aKey aIndex rs → r ∈ rs := by
  intro rs
  induction rs with
  | nil => intro aIndex r hr; simp [keepRecs] at hr
  | cons p rs ih =>
    intro aIndex r hr
    obtain ⟨k, v⟩ := p
    rw [keepRecs] at hr
    split at hr
    · exact List.mem_cons_of_mem _ (ih aIndex r hr)
    · rcases List.mem_cons.mp hr with h | h
      · exact h ▸ List.mem_cons_self _ _
      · exact List.mem_cons_of_mem _ (ih _ r h)

/-- The status of the delete loop for a non-negative occurrence index: `NONE`
exactly when some record was removed, i.e. when the key has more than `k`
occurrences. -/
theorem delErr_cast (aKey : Nat) :
    ∀ (rs : List (Nat × List Nat)) (k : Nat) (error : OtError),
    delErr aKey (k : Int) error rs =
      if k < countK aKey rs then OtError.NONE else error := by
  intro rs
  induction rs with
  | nil => intro k error; simp [delErr, countK]
  | cons p rs ih =>
    intro k error
    obtain ⟨k', v⟩ := p
    rw [delErr, countK]
    by_cases hkey : aKey = k'
    · rw [if_pos hkey.symm]
      by_cases hk : k = 0
      · subst hk
        rw [if_pos ⟨hkey, Or.inl (by norm_num)⟩, ih 0 OtError.NONE,
          if_pos (show 0 < countK aKey rs + 1 by omega)]
        split <;> rfl
      · rw [if_neg (show ¬(aKey = k' ∧ (((k : Nat) : Int) = 0 ∨ ((k : Nat) : Int) = -1)) by
          push_neg; intro _; constructor <;> omega)]
        rw [if_pos hkey, show ((k : Nat) : Int) - 1 = ((k - 1 : Nat) : Int) by omega]
        rw [ih (k - 1) error]
        by_cases hc : k - 1 < countK aKey rs
        · rw [if_pos hc, if_pos (show k < countK aKey rs + 1 by omega)]
        · rw [if_neg hc, if_neg (show ¬ k < countK aKey rs + 1 by omega)]
    · rw [if_neg (fun h => hkey h.1), if_neg hkey,
        if_neg (show ¬ (k' = aKey) from fun h => hkey h.symm)]
      exact ih k error

/-- The status of the delete loop for `aIndex = -1`: `NONE` exactly when the
key occurs at all. -/
theorem delErr_neg_one (aKey : Nat) :
    ∀ (rs : List (Nat × List Nat)) (error : OtError),
    delErr aKey (-1) error rs =
      if 0 < countK aKey rs then OtError.NONE else error := by
  intro rs
  induction rs with
  | nil => intro error; simp [delErr, countK]
  | cons p rs ih =>
    intro error
    obtain ⟨k', v⟩ := p
    rw [delErr, countK]
    by_cases hkey : aKey = k'
    · rw [if_pos hkey.symm, if_pos ⟨hkey, Or.inr rfl⟩, ih OtError.NONE,
        if_pos (show 0 < countK aKey rs + 1 by omega)]
      split <;> rfl
    · rw [if_neg (fun h => hkey h.1), if_neg hkey,
        if_neg (show ¬ (k' = aKey) from fun h => hkey h.symm)]
      exact ih error

theorem occDeleteAux_of_ge (key : Nat) :
    ∀ (rs : List (Nat × List Nat)) (seen k : Nat), k ≤ seen →
    occDeleteAux key seen k rs = keepRecs key 0 rs := by
  intro rs
  induction rs with
  | nil => intro seen k _; rfl
  | cons p rs ih =>
    intro seen k hks
    obtain ⟨k', v⟩ := p
    rw [occDeleteAux, keepRecs]
    by_cases hkey : k' = key
    · rw [if_pos hkey, if_neg (show ¬ seen < k by omega),
        if_pos ⟨hkey.symm, Or.inl rfl⟩]
      exact ih (seen + 1) k (by omega)
    · rw [if_neg hkey, if_neg (fun h => hkey h.1.symm), if_neg (fun h => hkey h.symm)]
      rw [ih seen k hks]

/-- The loop-level filtering `keepRecs` at a non-negative countdown agrees
with the spec-level "keep only the occurrences seen before the threshold". -/
theorem keepRecs_cast (key : Nat) :
    ∀ (rs : List (Nat × List Nat)) (m seen : Nat), seen ≤ m →
    keepRecs key ((m - seen : Nat) : Int) rs = occDeleteAux key seen m rs := by
  intro rs
  induction rs with
  | nil => intro m seen _; rfl
  | cons p rs ih =>
    intro m seen hsm
    obtain ⟨k', v⟩ := p
    rw [keepRecs, occDeleteAux]
    by_cases hkey : k' = key
    · by_cases hlt : seen < m
      · rw [if_neg (show ¬(key = k' ∧
            (((m - seen : Nat) : Int) = 0 ∨ ((m - seen : Nat) : Int) = -1)) by
          push_neg; intro _; constructor <;> omega)]
        rw [if_pos hlt, if_pos hkey.symm,
          show ((m - seen : Nat) : Int) - 1 = ((m - (seen + 1) : Nat) : Int) by omega]
        rw [ih m (seen + 1) (by omega), if_pos hkey]
      · have hms : m - seen = 0 := by omega
        rw [hms, if_pos ⟨hkey.symm, Or.inl rfl⟩, if_pos hkey, if_neg hlt]
        rw [occDeleteAux_of_ge key rs (seen + 1) m (by omega)]
        rw [show ((0 : Nat) : Int) = ((m - m : Nat) : Int) by omega]
        rw [ih m m le_rfl, occDeleteAux_of_ge key rs m m le_rfl]
    · rw [if_neg (fun h => hkey h.1.symm), if_neg (fun h => hkey h.symm), if_neg hkey]
      rw [ih m seen hsm]

/-- Occurrence lookup after the spec-level deletion: the first `k` occurrences
survive at their old occurrence indices, everything from the `k`-th occurrence
onward is gone. -/
theorem nthOccurrence_occDeleteAux (key : Nat) :
    ∀ (rs : List (Nat × List Nat)) (seen k i : Nat),
    nthOccurrence key i (occDeleteAux key seen k rs) =
      (if seen + i < k then nthOccurrence key i rs else none) := by
  intro rs
  induction rs with
  | nil => intro seen k i; simp [occDeleteAux, nthOccurrence]
  | cons p rs ih =>
    intro seen k i
    obtain ⟨k', v⟩ := p
    rw [occDeleteAux]
    by_cases hkey : k' = key
    · rw [if_pos hkey]
      by_cases hlt : seen < k
      · rw [if_pos hlt, nthOccurrence, if_pos hkey, nthOccurrence, if_pos hkey]
        by_cases hi : i = 0
        · subst hi
          rw [if_pos rfl, if_pos rfl, if_pos (by omega)]
        · rw [if_neg hi, if_neg hi, ih (seen + 1) k (i - 1)]
          by_cases hcond : seen + i < k
          · rw [if_pos (by omega), if_pos hcond]
          · rw [if_neg (by omega), if_neg hcond]
      · rw [if_neg hlt, ih (seen + 1) k i, if_neg (by omega), if_neg (by omega)]
    · rw [if_neg hkey, nthOccurrence, if_neg hkey, ih seen k i, nthOccurrence,
        if_neg hkey]

/-- After the spec-level deletion, the records of the key are exactly the
first `k - seen` matching records of the original sequence, in order. -/
theorem filter_occDeleteAux (key : Nat) :
    ∀ (rs : List (Nat × List Nat)) (seen k : Nat),
    (occDeleteAux key seen k rs).filter (fun r => r.1 == key) =
      (rs.filter (fun r => r.1 == key)).take (k - seen) := by
  intro rs
  induction rs with
  | nil => intro seen k; simp [occDeleteAux]
  | cons p rs ih =>
    intro seen k
    obtain ⟨k', v⟩ := p
    rw [occDeleteAux]
    by_cases hkey : k' = key
    · rw [if_pos hkey]
      by_cases hlt : seen < k
      · rw [if_pos hlt, List.filter_cons_of_pos (by simp [hkey]),
          List.filter_cons_of_pos (by simp [hkey]), ih (seen + 1) k,
          show k - seen = (k - (seen + 1)) + 1 by omega, List.take_succ_cons]
      · rw [if_neg hlt, ih (seen + 1) k,
          List.filter_cons_of_pos (by simp [hkey]),
          show k - seen = 0 by omega, show k - (seen + 1) = 0 by omega,
          List.take_zero, List.take_zero]
    · rw [if_neg hkey, List.filter_cons_of_neg (by simp [hkey]),
        List.filter_cons_of_neg (by simp [hkey])]
      exact ih seen k

/-- The delete loop treats the occurrence indices `0` and `-1` identically:
once the countdown is exhausted it stays exhausted, and both values select
the same skip branch for every matching record. -/
theorem deleteAux_zero_neg_one (junk aKey : Nat) :
    ∀ (fuel : Nat) (error : OtError) (swap rest : List Nat),
    deleteAux junk aKey fuel 0 error swap rest =
      deleteAux junk aKey fuel (-1) error swap rest := by
  intro fuel
  induction fuel with
  | zero =>
    intro error swap rest
    cases rest <;> rfl
  | succ fuel ih =>
    intro error swap rest
    match rest with
    | [] => rfl
    | [a] => rfl
    | [a, b] => rfl
    | [a, b, c] => rfl
    | k0 :: k1 :: l0 :: l1 :: tail =>
      simp only [deleteAux, true_or, or_true, and_true]
      by_cases hkey : aKey = dec16 k0 k1
      · rw [if_pos hkey, if_pos hkey]
        exact ih OtError.NONE swap _
      · rw [if_neg hkey, if_neg hkey, if_neg hkey, if_neg hkey]
        cases copyAux junk (dec16 l0 l1) (dec16 l0 l1) tail
            (swap ++ enc16 (dec16 k0 k1) ++ enc16 (dec16 l0 l1)) with
        | none => rfl
        | some p =>
          obtain ⟨swap', rest'⟩ := p
          exact ih error swap' rest'

theorem parseRecords_single (aKey : Nat) (aValue : List Nat)
    (hk : aKey < 65536) (hv : aValue.length < 65536) :
    parseRecords (encodeRecord aKey aValue) = [(aKey, aValue)] := by
  have h := parseRecords_encodeRecords [(aKey, aValue)]
    (fun r hr => by simp at hr; subst hr; exact ⟨hk, hv⟩)
  simpa [encodeRecords] using h

/-- C1: for every store state and every successful `set(key, value)` call
(equivalently `add`), the resulting store consists of exactly the single
record `(key, value)`: records of every other key present before the call are
discarded, not merged back. -/
theorem C1_set_replaces_store (junk : Nat) (file : List Nat) (aKey : Nat)
    (aValue : List Nat) (hk : aKey < 65536) (hv : aValue.length < 65536) :
    (otPosixSecureSettingsSet junk file aKey aValue).1 = OtError.NONE ∧
    parseRecords (otPosixSecureSettingsSet junk file aKey aValue).2 =
      [(aKey, aValue)] ∧
    otPosixSecureSettingsAdd junk file aKey aValue =
      otPosixSecureSettingsSet junk file aKey aValue := by
  have hset : otPosixSecureSettingsSet junk file aKey aValue =
      (OtError.NONE, encodeRecord aKey aValue) := by
    unfold otPosixSecureSettingsSet
    cases (otPosixSecureSettingsDelete junk file aKey (-1)).1 <;> rfl
  exact ⟨by rw [hset], by rw [hset]; exact parseRecords_single aKey aValue hk hv,
    rfl⟩

/-- C1 witness: a concrete set call on a store holding a record of another
key leaves exactly the single new record. -/
theorem C1_set_replaces_store_witness :
    1 < 65536 ∧ ([65, 66] : List Nat).length < 65536 ∧
    (otPosixSecureSettingsSet 0 [9, 0, 1, 0, 5] 1 [65, 66]).1 = OtError.NONE ∧
    parseRecords (otPosixSecureSettingsSet 0 [9, 0, 1, 0, 5] 1 [65, 66]).2 =
      [(1, [65, 66])] :=
  ⟨by decide, by decide,
   (C1_set_replaces_store 0 [9, 0, 1, 0, 5] 1 [65, 66] (by decide) (by decide)).1,
   (C1_set_replaces_store 0 [9, 0, 1, 0, 5] 1 [65, 66] (by decide) (by decide)).2.1⟩

/-- C2 counterexample: the claimed scenario fails on the code.  Starting from
the empty store, after `add(0x0001, "AB")` then `add(0x0001, "CD")` the claim
says `get(0x0001, 0)` yields `"AB"` (bytes `[65, 66]`); in fact the second
`add` replaced the whole store, so the copied bytes are `"CD"` and occurrence
`1` does not even exist. -/
theorem C2_counterexample :
    (otPosixSecureSettingsGet
        (otPosixSecureSettingsAdd 0
          (otPosixSecureSettingsAdd 0 [] 1 [65, 66]).2 1 [67, 68]).2
        1 0 true (some 2)).2.2 ≠ [65, 66] := by decide

/-- C2 amended: starting from the empty store, after `add(0x0001, "AB")` then
`add(0x0001, "CD")` the store holds only `(0x0001, "CD")`: `get(0x0001, 0)`
yields `"CD"` and `get(0x0001, 1)` yields `NotFound`; the following
`delete(0x0001, 1)` finds no occurrence with index `1`, returns `NotFound`
and leaves the store unchanged, after which `get(0x0001, 0)` still yields
`"CD"` and `get(0x0001, 1)` still yields `NotFound`. -/
theorem C2_scenario_amended :
    (otPosixSecureSettingsGet
        (otPosixSecureSettingsAdd 0
          (otPosixSecureSettingsAdd 0 [] 1 [65, 66]).2 1 [67, 68]).2
        1 0 true (some 2)) = (OtError.NONE, some 2, [67, 68]) ∧
    (otPosixSecureSettingsGet
        (otPosixSecureSettingsAdd 0
          (otPosixSecureSettingsAdd 0 [] 1 [65, 66]).2 1 [67, 68]).2
        1 1 true (some 2)).1 = OtError.NOT_FOUND ∧
    (otPosixSecureSettingsDelete 0
        (otPosixSecureSettingsAdd 0
          (otPosixSecureSettingsAdd 0 [] 1 [65, 66]).2 1 [67, 68]).2 1 1) =
      (OtError.NOT_FOUND,
       (otPosixSecureSettingsAdd 0
          (otPosixSecureSettingsAdd 0 [] 1 [65, 66]).2 1 [67, 68]).2) ∧
    (otPosixSecureSettingsGet
        (otPosixSecureSettingsDelete 0
          (otPosixSecureSettingsAdd 0
            (otPosixSecureSettingsAdd 0 [] 1 [65, 66]).2 1 [67, 68]).2 1 1).2
        1 0 true (some 2)) = (OtError.NONE, some 2, [67, 68]) := by decide

/-- C7: encoding a record of any in-range key and any value of length
`0..65535` (arbitrary byte content) exactly as `set` writes it, and then
decoding it as the scan reads it, reproduces the original key, length and
value. -/
theorem C7_record_roundtrip (aKey : Nat) (aValue : List Nat)
    (hk : aKey < 65536) (hv : aValue.length < 65536) :
    parseRecords (encodeRecord aKey aValue) = [(aKey, aValue)] :=
  parseRecords_single aKey aValue hk hv

/-- C7 witness at a concrete record. -/
theorem C7_record_roundtrip_witness :
    3 < 65536 ∧ ([200, 0, 77] : List Nat).length < 65536 ∧
    parseRecords (encodeRecord 3 [200, 0, 77]) = [(3, [200, 0, 77])] :=
  ⟨by decide, by decide, C7_record_roundtrip 3 [200, 0, 77] (by decide) (by decide)⟩

/-- C8: for every store state (well-formed or not) and every key,
`delete(key, 0)` has the identical return status and the identical effect on
the store bytes as `delete(key, -1)`. -/
theorem C8_delete_zero_eq_neg_one (junk : Nat) (file : List Nat) (aKey : Nat) :
    otPosixSecureSettingsDelete junk file aKey 0 =
      otPosixSecureSettingsDelete junk file aKey (-1) := by
  unfold otPosixSecureSettingsDelete
  rw [deleteAux_zero_neg_one]

/-- C5 counterexample: the claim says delete returns `Success` whenever at
least one record carries the key.  Here the store holds one record of key
`1`, yet `delete(1, 5)` returns `NOT_FOUND` because the occurrence countdown
never reaches the threshold and no record is removed. -/
theorem C5_counterexample :
    0 < countK 1 (parseRecords [1, 0, 2, 0, 67, 68]) ∧
    (otPosixSecureSettingsDelete 0 [1, 0, 2, 0, 67, 68] 1 5).1 =
      OtError.NOT_FOUND := by decide

/-- C5 amended: on a well-formed store, delete returns `Success` exactly when
at least one record is removed — for `occurrenceIndex = k ≥ 0` when the key
has more than `k` occurrences, and for `occurrenceIndex = -1` when the key
occurs at all; otherwise it returns `NotFound`, even when records of the key
exist but none is removed. -/
theorem C5_delete_status (junk : Nat) (s : List Nat) (aKey : Nat)
    (hwf : encodeRecords (parseRecords s) = s) :
    (∀ k : Nat, (otPosixSecureSettingsDelete junk s aKey (k : Int)).1 =
        if k < countK aKey (parseRecords s) then OtError.NONE
        else OtError.NOT_FOUND) ∧
    ((otPosixSecureSettingsDelete junk s aKey (-1)).1 =
        if 0 < countK aKey (parseRecords s) then OtError.NONE
        else OtError.NOT_FOUND) := by
  constructor
  · intro k
    rw [delete_wf junk s aKey _ hwf]
    exact delErr_cast aKey (parseRecords s) k OtError.NOT_FOUND
  · rw [delete_wf junk s aKey _ hwf]
    exact delErr_neg_one aKey (parseRecords s) OtError.NOT_FOUND

/-- C5 witness at a concrete well-formed store. -/
theorem C5_delete_status_witness :
    encodeRecords (parseRecords [1, 0, 2, 0, 67, 68]) = [1, 0, 2, 0, 67, 68] ∧
    (otPosixSecureSettingsDelete 0 [1, 0, 2, 0, 67, 68] 1 ((0 : Nat) : Int)).1 =
      (if 0 < countK 1 (parseRecords [1, 0, 2, 0, 67, 68]) then OtError.NONE
       else OtError.NOT_FOUND) ∧
    (otPosixSecureSettingsDelete 0 [1, 0, 2, 0, 67, 68] 1 (-1)).1 =
      (if 0 < countK 1 (parseRecords [1, 0, 2, 0, 67, 68]) then OtError.NONE
       else OtError.NOT_FOUND) :=
  ⟨by decide,
   (C5_delete_status 0 [1, 0, 2, 0, 67, 68] 1 (by decide)).1 0,
   (C5_delete_status 0 [1, 0, 2, 0, 67, 68] 1 (by decide)).2⟩

/-- C6: on a well-formed store whose `i`-th occurrence of the key holds the
value `v` (true length `L = v.length`), `get` with a destination buffer of
capacity `C` copies exactly `min L C` bytes — the first `C` bytes when
`C < L` — and in every case reports the true length `L` through the length
out-parameter. -/
theorem C6_get_truncation (s : List Nat) (aKey i cap : Nat) (v : List Nat)
    (hwf : encodeRecords (parseRecords s) = s)
    (hocc : nthOccurrence aKey i (parseRecords s) = some v) :
    otPosixSecureSettingsGet s aKey (i : Int) true (some cap) =
      (OtError.NONE, some v.length, v.take (min v.length cap)) ∧
    (cap < v.length →
      (otPosixSecureSettingsGet s aKey (i : Int) true (some cap)).2.2 =
        v.take cap) ∧
    (v.length ≤ cap →
      (otPosixSecureSettingsGet s aKey (i : Int) true (some cap)).2.2 = v) := by
  have h := get_wf s aKey i cap true hwf
  rw [hocc] at h
  refine ⟨h, fun hcap => ?_, fun hcap => ?_⟩
  · rw [h]
    simp only [if_pos rfl]
    rw [min_eq_right (le_of_lt hcap), if_pos trivial]
  · rw [h]
    simp only [if_pos rfl]
    rw [min_eq_left hcap, List.take_length, if_pos trivial]

/-- C6 witness: a record of length 2 read once with capacity 1 (truncated
copy, true length reported) and once with capacity 8 (full copy). -/
theorem C6_get_truncation_witness :
    (otPosixSecureSettingsGet [1, 0, 2, 0, 65, 66] 1 ((0 : Nat) : Int) true
        (some 1)) = (OtError.NONE, some 2, [65]) ∧
    (otPosixSecureSettingsGet [1, 0, 2, 0, 65, 66] 1 ((0 : Nat) : Int) true
        (some 8)).2.2 = [65, 66] :=
  ⟨(C6_get_truncation [1, 0, 2, 0, 65, 66] 1 0 1 [65, 66] (by decide)
      (by decide)).1,
   (C6_get_truncation [1, 0, 2, 0, 65, 66] 1 0 8 [65, 66] (by decide)
      (by decide)).2.2 (by decide)⟩

/-- C3: on a well-formed store, `delete(key, k)` with `0 ≤ k < count(key)`
returns `Success`, leaves exactly the first `k` occurrences of the key (in
original file order) while removing the `k`-th occurrence and every later
one (records of other keys are untouched, as the `occDeleteAux` description
states), and afterwards `get(key, k-1)` succeeds (when `k > 0`) while
`get(key, k)` returns `NotFound`. -/
theorem C3_delete_keeps_first_k (junk : Nat) (s : List Nat) (aKey k : Nat)
    (hwf : encodeRecords (parseRecords s) = s)
    (hk : k < countK aKey (parseRecords s)) :
    (otPosixSecureSettingsDelete junk s aKey (k : Int)).1 = OtError.NONE ∧
    parseRecords (otPosixSecureSettingsDelete junk s aKey (k : Int)).2 =
      occDeleteAux aKey 0 k (parseRecords s) ∧
    (parseRecords (otPosixSecureSettingsDelete junk s aKey (k : Int)).2).filter
        (fun r => r.1 == aKey) =
      ((parseRecords s).filter (fun r => r.1 == aKey)).take k ∧
    (∀ cap : Nat, 0 < k →
      (otPosixSecureSettingsGet
          (otPosixSecureSettingsDelete junk s aKey (k : Int)).2 aKey
          ((k - 1 : Nat) : Int) true (some cap)).1 = OtError.NONE) ∧
    (∀ cap : Nat,
      (otPosixSecureSettingsGet
          (otPosixSecureSettingsDelete junk s aKey (k : Int)).2 aKey
          ((k : Nat) : Int) true (some cap)).1 = OtError.NOT_FOUND) := by
  have hdel := delete_wf junk s aKey (k : Int) hwf
  have hkeep : keepRecs aKey ((k : Nat) : Int) (parseRecords s) =
      occDeleteAux aKey 0 k (parseRecords s) := by
    have := keepRecs_cast aKey (parseRecords s) k 0 (Nat.zero_le k)
    rwa [Nat.sub_zero] at this
  have hboundkeep : ∀ r ∈ keepRecs aKey ((k : Nat) : Int) (parseRecords s),
      boundedRec r := fun r hr =>
    parseRecords_bounded s r (keepRecs_subset aKey (parseRecords s) _ r hr)
  have hparse2 : parseRecords (otPosixSecureSettingsDelete junk s aKey (k : Int)).2 =
      occDeleteAux aKey 0 k (parseRecords s) := by
    rw [hdel]
    rw [parseRecords_encodeRecords _ hboundkeep, hkeep]
  have hwf2 : encodeRecords
      (parseRecords (otPosixSecureSettingsDelete junk s aKey (k : Int)).2) =
      (otPosixSecureSettingsDelete junk s aKey (k : Int)).2 := by
    rw [hparse2, ← hkeep, hdel]
  refine ⟨?_, hparse2, ?_, ?_, ?_⟩
  · rw [hdel]
    rw [show (delErr aKey ((k : Nat) : Int) OtError.NOT_FOUND (parseRecords s),
        encodeRecords (keepRecs aKey ((k : Nat) : Int) (parseRecords s))).1 =
      delErr aKey ((k : Nat) : Int) OtError.NOT_FOUND (parseRecords s) from rfl]
    rw [delErr_cast aKey (parseRecords s) k OtError.NOT_FOUND, if_pos hk]
  · rw [hparse2, filter_occDeleteAux aKey (parseRecords s) 0 k, Nat.sub_zero]
  · intro cap hkpos
    have hg := get_wf (otPosixSecureSettingsDelete junk s aKey (k : Int)).2
      aKey (k - 1) cap true hwf2
    rw [hparse2, nthOccurrence_occDeleteAux aKey (parseRecords s) 0 k (k - 1),
      if_pos (by omega)] at hg
    have hsome : ∃ w, nthOccurrence aKey (k - 1) (parseRecords s) = some w := by
      cases hx : nthOccurrence aKey (k - 1) (parseRecords s) with
      | none =>
        have := (nthOccurrence_eq_none_iff aKey (parseRecords s) (k - 1)).mp hx
        omega
      | some w => exact ⟨w, rfl⟩
    obtain ⟨w, hw⟩ := hsome
    rw [hw] at hg
    rw [hg]
  · intro cap
    have hg := get_wf (otPosixSecureSettingsDelete junk s aKey (k : Int)).2
      aKey k cap true hwf2
    rw [hparse2, nthOccurrence_occDeleteAux aKey (parseRecords s) 0 k k,
      if_neg (by omega)] at hg
    rw [hg]

/-- C3 witness: deleting occurrence 1 of key 1 in a three-occurrence store
keeps only the first occurrence; `get(1, 0)` still succeeds and `get(1, 1)`
is gone. -/
theorem C3_delete_keeps_first_k_witness :
    (otPosixSecureSettingsDelete 0
        [1, 0, 1, 0, 65, 1, 0, 1, 0, 66, 1, 0, 1, 0, 67] 1 ((1 : Nat) : Int)).1 =
      OtError.NONE ∧
    parseRecords (otPosixSecureSettingsDelete 0
        [1, 0, 1, 0, 65, 1, 0, 1, 0, 66, 1, 0, 1, 0, 67] 1 ((1 : Nat) : Int)).2 =
      occDeleteAux 1 0 1
        (parseRecords [1, 0, 1, 0, 65, 1, 0, 1, 0, 66, 1, 0, 1, 0, 67]) ∧
    (otPosixSecureSettingsGet
        (otPosixSecureSettingsDelete 0
          [1, 0, 1, 0, 65, 1, 0, 1, 0, 66, 1, 0, 1, 0, 67] 1 ((1 : Nat) : Int)).2
        1 ((0 : Nat) : Int) true (some 2)).1 = OtError.NONE ∧
    (otPosixSecureSettingsGet
        (otPosixSecureSettingsDelete 0
          [1, 0, 1, 0, 65, 1, 0, 1, 0, 66, 1, 0, 1, 0, 67] 1 ((1 : Nat) : Int)).2
        1 ((1 : Nat) : Int) true (some 2)).1 = OtError.NOT_FOUND := by
  have h := C3_delete_keeps_first_k 0
    [1, 0, 1, 0, 65, 1, 0, 1, 0, 66, 1, 0, 1, 0, 67] 1 1 (by decide) (by decide)
  exact ⟨h.1, h.2.1, h.2.2.2.1 2 (by decide), h.2.2.2.2 2⟩

theorem enc16_append_cons (bk bl : Nat) (bt : List Nat) :
    enc16 bk ++ enc16 bl ++ bt =
      bk % 256 :: bk / 256 % 256 :: bl % 256 :: bl / 256 % 256 :: bt := by
  simp [enc16]

/-- The `Get` scan on a length-overrun tail record that is not the requested
occurrence: the header is read (and counted when the key matches), the
`lseek` past end-of-file succeeds, the loop condition fails, and the call
ends in `NOT_FOUND`. -/
theorem getAux_overrun_miss (aKey fuel : Nat) (j : Nat) (av : Bool) (cap : Nat)
    (bk bl : Nat) (bt : List Nat) (hbk : bk < 65536) (hbl : bl < 65536)
    (hbt : bt.length < bl) (hfuel : 1 ≤ fuel) (hj : bk = aKey → j ≠ 0) :
    getAux aKey fuel (j : Int) av (some cap) (enc16 bk ++ enc16 bl ++ bt) =
      (OtError.NOT_FOUND, some cap, []) := by
  rw [enc16_append_cons]
  match fuel, hfuel with
  | fuel + 1, _ =>
    simp only [getAux, dec16_enc16 hbk, dec16_enc16 hbl]
    have hdrop : bt.drop bl = [] := List.drop_eq_nil_of_le (le_of_lt hbt)
    by_cases hkey : bk = aKey
    · rw [if_pos hkey, if_neg (show ¬ ((j : Nat) : Int) = 0 by
        have := hj hkey; omega)]
      rw [hdrop, getAux_nil]
    · rw [if_neg hkey, hdrop, getAux_nil]

/-- The `Get` scan when the requested occurrence is the length-overrun tail
record itself and the capacity exceeds the remaining bytes: the `NONE` status
is assigned, the short payload read copies only the remaining bytes, and the
`VerifyOrExit` jumps past the length assignment, leaving the caller-supplied
capacity in the length out-parameter. -/
theorem getAux_overrun_hit (aKey fuel : Nat) (cap len : Nat) (bt : List Nat)
    (hk : aKey < 65536) (hlen : len < 65536) (hbt : bt.length < len)
    (hcap : bt.length < cap) (hfuel : 1 ≤ fuel) :
    getAux aKey fuel ((0 : Nat) : Int) true (some cap)
        (enc16 aKey ++ enc16 len ++ bt) =
      (OtError.NONE, some cap, bt) := by
  rw [enc16_append_cons]
  match fuel, hfuel with
  | fuel + 1, _ =>
    simp only [getAux, dec16_enc16 hk, dec16_enc16 hlen]
    rw [if_pos trivial, if_pos (show ((0 : Nat) : Int) = 0 by norm_num),
      if_pos trivial, if_pos (lt_min hbt hcap)]

/-- C9: malformed trailing bytes stop the scan early and are otherwise
ignored.  For a store that is a well-formed record sequence followed by a
malformed tail — either a partial header (fewer than 4 bytes) or a header
whose declared length overruns the remaining bytes — `get` for any occurrence
that is not found in the well-formed prefix (and is not the overrun header
itself) returns plain `NOT_FOUND`; no distinct corruption error exists. -/
theorem C9_malformed_tail_ignored (rs : List (Nat × List Nat)) (aKey i cap : Nat)
    (hb : ∀ r ∈ rs, boundedRec r)
    (hmiss : nthOccurrence aKey i rs = none) :
    (∀ bad : List Nat, bad ≠ [] → bad.length < 4 →
      otPosixSecureSettingsGet (encodeRecords rs ++ bad) aKey (i : Int) true
          (some cap) = (OtError.NOT_FOUND, some cap, [])) ∧
    (∀ (bk bl : Nat) (bt : List Nat), bk < 65536 → bl < 65536 →
      bt.length < bl → (bk = aKey → i ≠ countK aKey rs) →
      otPosixSecureSettingsGet (encodeRecords rs ++ (enc16 bk ++ enc16 bl ++ bt))
          aKey (i : Int) true (some cap) =
        (OtError.NOT_FOUND, some cap, [])) := by
  constructor
  · intro bad hne hlen4
    unfold otPosixSecureSettingsGet
    rw [getAux_split aKey true cap bad rs i _ le_rfl hb, hmiss]
    exact getAux_short aKey _ _ true (some cap) bad hlen4
  · intro bk bl bt hbk hbl hbt hj
    unfold otPosixSecureSettingsGet
    rw [getAux_split aKey true cap _ rs i _ le_rfl hb, hmiss]
    have hcount := (nthOccurrence_eq_none_iff aKey rs i).mp hmiss
    have hfuel : 1 ≤ (encodeRecords rs ++ (enc16 bk ++ enc16 bl ++ bt)).length -
        rs.length := by
      have h1 := length_le_encodeRecords_length rs
      simp only [List.length_append, enc16, List.length_cons]
      simp
      omega
    exact getAux_overrun_miss aKey _ (i - countK aKey rs) true cap bk bl bt
      hbk hbl hbt hfuel (fun hk0 => by have := hj hk0; omega)

/-- C9 witness: a store with one record of key 2, once followed by a 1-byte
partial header and once by an overrun header of another key; `get(1, 0)`
returns `NOT_FOUND` in both cases. -/
theorem C9_malformed_tail_ignored_witness :
    otPosixSecureSettingsGet (encodeRecords [(2, [9])] ++ [7]) 1
        ((0 : Nat) : Int) true (some 3) = (OtError.NOT_FOUND, some 3, []) ∧
    otPosixSecureSettingsGet
        (encodeRecords [(2, [9])] ++ (enc16 5 ++ enc16 9 ++ [1, 2])) 1
        ((0 : Nat) : Int) true (some 3) = (OtError.NOT_FOUND, some 3, []) :=
  ⟨(C9_malformed_tail_ignored [(2, [9])] 1 0 3 (by norm_num [boundedRec])
      (by decide)).1 [7] (by decide) (by decide),
   (C9_malformed_tail_ignored [(2, [9])] 1 0 3 (by norm_num [boundedRec])
      (by decide)).2 5 9 [1, 2] (by decide) (by decide) (by decide)
      (by decide)⟩

/-- C10 counterexample: the claim asserts that whenever the matching record is
the length-overrun tail record, `get` with a destination buffer leaves the
length out-parameter at the caller-supplied capacity.  With capacity 2 and
only 3 payload bytes remaining the copy is not short, so the code does assign
the declared length 5: the call returns `NONE` and the out-parameter holds
`5`, not the supplied `2`. -/
theorem C10_counterexample :
    (otPosixSecureSettingsGet [1, 0, 5, 0, 10, 11, 12] 1 0 true (some 2)).1 =
      OtError.NONE ∧
    (otPosixSecureSettingsGet [1, 0, 5, 0, 10, 11, 12] 1 0 true (some 2)).2.1 ≠
      some 2 := by decide

/-- C10 amended: when the record matching `(key, occurrenceIndex)` is the
malformed tail record itself (declared length exceeding the remaining bytes)
and additionally the requested capacity exceeds the remaining bytes (so the
payload read comes up short), `get` still returns `Success`, the length
out-parameter keeps the caller-supplied capacity value, and the buffer holds
only the bytes that could be read, because the success status is assigned
before the payload copy and the short copy jumps to exit past the length
assignment. -/
theorem C10_short_payload_get (rs : List (Nat × List Nat)) (aKey len cap : Nat)
    (bt : List Nat) (hb : ∀ r ∈ rs, boundedRec r) (hk : aKey < 65536)
    (hlen : len < 65536) (hshort : bt.length < len) (hcap : bt.length < cap) :
    otPosixSecureSettingsGet (encodeRecords rs ++ (enc16 aKey ++ enc16 len ++ bt))
        aKey ((countK aKey rs : Nat) : Int) true (some cap) =
      (OtError.NONE, some cap, bt) := by
  unfold otPosixSecureSettingsGet
  rw [getAux_split aKey true cap _ rs (countK aKey rs) _ le_rfl hb,
    (nthOccurrence_eq_none_iff aKey rs (countK aKey rs)).mpr le_rfl]
  have hfuel : 1 ≤ (encodeRecords rs ++ (enc16 aKey ++ enc16 len ++ bt)).length -
      rs.length := by
    have h1 := length_le_encodeRecords_length rs
    simp only [List.length_append, enc16, List.length_cons]
    simp
    omega
  rw [show countK aKey rs - countK aKey rs = 0 by omega]
  exact getAux_overrun_hit aKey _ cap len bt hk hlen hshort hcap hfuel

/-- C10 witness: the store is one record of key 2 followed by an overrun
record of key 1 declaring 5 payload bytes with only 3 present; `get(1, 0)`
with capacity 4 returns `NONE`, reports the capacity 4 instead of a length,
and yields the 3 readable bytes. -/
theorem C10_short_payload_get_witness :
    otPosixSecureSettingsGet
        (encodeRecords [(2, [9])] ++ (enc16 1 ++ enc16 5 ++ [10, 11, 12])) 1
        ((countK 1 [(2, [9])] : Nat) : Int) true (some 4) =
      (OtError.NONE, some 4, [10, 11, 12]) :=
  C10_short_payload_get [(2, [9])] 1 5 4 [10, 11, 12]
    (by norm_num [boundedRec]) (by decide) (by decide) (by decide) (by decide)

/-- A payload chunk read returns zero bytes exactly when the stream runs out
at a 512-byte chunk boundary before the declared length is consumed; this is
the bound under which the chunked copy aborts. -/
theorem copyAux_zero_read (junk : Nat) :
    ∀ (cfuel len : Nat) (stream swap : List Nat), len ≤ cfuel → 0 < len →
    stream.length ≤ 512 * ((len - 1) / 512) →
    copyAux junk cfuel len stream swap = none := by
  intro cfuel
  induction cfuel with
  | zero => intro len stream swap hf hp hb; omega
  | succ cfuel ih =>
    intro len stream swap hf hp hb
    match len, hp with
    | len + 1, _ =>
      simp only [copyAux]
      by_cases h512 : 512 ≤ len + 1
      · rw [if_pos h512]
        by_cases hs0 : stream.length = 0
        · rw [show min 512 stream.length = 0 by omega, if_pos rfl]
        · rw [if_neg (show ¬ min 512 stream.length = 0 by omega)]
          exact ih (len + 1 - 512) (stream.drop (min 512 stream.length))
            (swap ++ (stream.take (min 512 stream.length) ++
              List.replicate (512 - min 512 stream.length) junk))
            (by omega) (by omega) (by simp [List.length_drop]; omega)
      · rw [if_neg h512]
        rw [show min (len + 1) stream.length = 0 by omega, if_pos rfl]

/-- The delete loop aborts on a length-overrun tail record whenever that
record is not skipped (the skip branch only seeks) and the remaining payload
bytes run out at a chunk boundary: the chunk read returns zero bytes and the
loop jumps to exit.  This covers matching keys with a positive remaining
countdown, non-matching keys, and multi-chunk records. -/
theorem deleteAux_overrun_zero_read (junk aKey f : Nat) (aIndex : Int)
    (err : OtError) (swap : List Nat) (bk bl : Nat) (bt : List Nat)
    (hbk : bk < 65536) (hbl : bl < 65536) (hpos : 0 < bl)
    (hbt : bt.length ≤ 512 * ((bl - 1) / 512))
    (hns : ¬(aKey = bk ∧ (aIndex = 0 ∨ aIndex = -1))) :
    deleteAux junk aKey (f + 1) aIndex err swap (enc16 bk ++ enc16 bl ++ bt) =
      DeleteOutcome.aborted err := by
  rw [enc16_append_cons]
  simp only [deleteAux, dec16_enc16 hbk, dec16_enc16 hbl]
  rw [if_neg hns]
  rw [copyAux_zero_read junk bl bl bt _ le_rfl hpos hbt]

/-- With enough remaining swap capacity every write check passes and the
fallible chunk copy coincides with the infallible one, consuming exactly the
declared length from the capacity. -/
theorem copyAuxF_ample (junk : Nat) :
    ∀ (cfuel len : Nat) (stream swap : List Nat) (wrem : Nat), len ≤ wrem →
    copyAuxF junk cfuel len stream swap wrem =
      (copyAux junk cfuel len stream swap).map
        (fun p => (p.1, p.2, wrem - len)) := by
  intro cfuel
  induction cfuel with
  | zero =>
    intro len stream swap wrem hw
    match len with
    | 0 => simp [copyAuxF, copyAux]
    | len + 1 => simp [copyAuxF, copyAux]
  | succ cfuel ih =>
    intro len stream swap wrem hw
    match len with
    | 0 => simp [copyAuxF, copyAux]
    | len + 1 =>
      simp only [copyAuxF, copyAux]
      set count := if 512 ≤ len + 1 then 512 else len + 1 with hc
      have hcount : count ≤ len + 1 := by rw [hc]; split <;> omega
      have hcpos : 1 ≤ count := by rw [hc]; split <;> omega
      by_cases hr : min count stream.length = 0
      · rw [if_pos hr, if_pos hr]; rfl
      · rw [if_neg hr, if_neg hr, if_pos (show min count wrem = count by omega)]
        rw [ih (len + 1 - count) (stream.drop (min count stream.length)) _
          (wrem - count) (by omega)]
        cases copyAux junk cfuel (len + 1 - count)
            (stream.drop (min count stream.length))
            (swap ++ (stream.take (min count stream.length) ++
              List.replicate (count - min count stream.length) junk)) with
        | none => rfl
        | some p =>
          simp only [Option.map]
          rw [show wrem - count - (len + 1 - count) = wrem - (len + 1) by omega]

/-- When the remaining swap capacity is smaller than the declared payload
length of a record whose payload is fully present, some chunk write comes up
short and the copy aborts. -/
theorem copyAuxF_short_write (junk : Nat) :
    ∀ (cfuel len : Nat) (stream swap : List Nat) (wrem : Nat),
    len ≤ cfuel → len ≤ stream.length → wrem < len →
    copyAuxF junk cfuel len stream swap wrem = none := by
  intro cfuel
  induction cfuel with
  | zero => intro len stream swap wrem hf hs hw; omega
  | succ cfuel ih =>
    intro len stream swap wrem hf hs hw
    match len, (show 0 < len by omega) with
    | len + 1, _ =>
      simp only [copyAuxF]
      set count := if 512 ≤ len + 1 then 512 else len + 1 with hc
      have hcount : count ≤ len + 1 := by rw [hc]; split <;> omega
      have hcpos : 1 ≤ count := by rw [hc]; split <;> omega
      rw [if_neg (show ¬ min count stream.length = 0 by omega)]
      by_cases hcw : count ≤ wrem
      · rw [if_pos (show min count wrem = count by omega)]
        exact ih (len + 1 - count) _ _ (wrem - count) (by omega)
          (by simp [List.length_drop]; omega) (by omega)
      · rw [if_neg (show ¬ min count wrem = count by omega)]

/-- With ample remaining swap capacity (65539 bytes per possible loop
iteration: 4 header bytes plus a payload of at most 65535 bytes) no write
check ever fails and the fallible delete loop coincides with the infallible
one. -/
theorem deleteAuxF_ample (junk aKey : Nat) :
    ∀ (fuel : Nat) (aIndex : Int) (error : OtError) (swap rest : List Nat)
      (wrem : Nat), 65539 * fuel ≤ wrem →
    deleteAuxF junk aKey fuel aIndex error swap rest wrem =
      deleteAux junk aKey fuel aIndex error swap rest := by
  intro fuel
  induction fuel with
  | zero => intro aIndex error swap rest wrem hw; cases rest <;> rfl
  | succ fuel ih =>
    intro aIndex error swap rest wrem hw
    match rest with
    | [] => rfl
    | [a] => rfl
    | [a, b] => rfl
    | [a, b, c] => rfl
    | k0 :: k1 :: l0 :: l1 :: tail =>
      simp only [deleteAuxF, deleteAux]
      by_cases hC : aKey = dec16 k0 k1 ∧ (aIndex = 0 ∨ aIndex = -1)
      · rw [if_pos hC, if_pos hC]
        exact ih aIndex OtError.NONE swap _ wrem (by omega)
      · rw [if_neg hC, if_neg hC]
        have hlen : dec16 l0 l1 < 65536 := dec16_lt l0 l1
        rw [if_pos (show min 2 wrem = 2 by omega),
          if_pos (show min 2 (wrem - 2) = 2 by omega)]
        rw [copyAuxF_ample junk (dec16 l0 l1) (dec16 l0 l1) tail _ (wrem - 4)
          (by omega)]
        cases copyAux junk (dec16 l0 l1) (dec16 l0 l1) tail
            (swap ++ enc16 (dec16 k0 k1) ++ enc16 (dec16 l0 l1)) with
        | none => rfl
        | some p =>
          obtain ⟨swap', rest'⟩ := p
          simp only [Option.map]
          exact ih _ error swap' rest' _ (by omega)

/-- With ample remaining swap capacity the fallible delete coincides with the
infallible one: `deleteAuxF` and `deleteAux` embed the same source loop, the
former merely making the write return values explicit. -/
theorem deleteF_ample (junk : Nat) (file : List Nat) (aKey : Nat)
    (aIndex : Int) (wrem : Nat) (hw : 65539 * file.length ≤ wrem) :
    otPosixSecureSettingsDeleteF junk file aKey aIndex wrem =
      otPosixSecureSettingsDelete junk file aKey aIndex := by
  unfold otPosixSecureSettingsDeleteF otPosixSecureSettingsDelete
  rw [deleteAuxF_ample junk aKey file.length aIndex OtError.NOT_FOUND [] file
    wrem hw]

/-- On a well-formed store the fallible delete loop completes exactly when
the swap file can absorb every byte of the rebuilt store (the encoded kept
records); with less capacity some header or chunk write check fails and the
loop aborts before the rename. -/
theorem deleteAuxF_wf (junk aKey : Nat) :
    ∀ (rs : List (Nat × List Nat)) (fuel : Nat) (aIndex : Int)
      (error : OtError) (swap : List Nat) (wrem : Nat),
    (encodeRecords rs).length ≤ fuel →
    (∀ r ∈ rs, boundedRec r) →
    ((encodeRecords (keepRecs aKey aIndex rs)).length ≤ wrem →
      deleteAuxF junk aKey fuel aIndex error swap (encodeRecords rs) wrem =
        DeleteOutcome.completed (delErr aKey aIndex error rs)
          (swap ++ encodeRecords (keepRecs aKey aIndex rs))) ∧
    (wrem < (encodeRecords (keepRecs aKey aIndex rs)).length →
      ∃ e, deleteAuxF junk aKey fuel aIndex error swap (encodeRecords rs) wrem =
        DeleteOutcome.aborted e) := by
  intro rs
  induction rs with
  | nil =>
    intro fuel aIndex error swap wrem hfuel hb
    constructor
    · intro hdem
      cases fuel <;> simp [deleteAuxF, encodeRecords, delErr, keepRecs]
    · intro hlt
      simp [encodeRecords, keepRecs] at hlt
  | cons p rs ih =>
    intro fuel aIndex error swap wrem hfuel hb
    obtain ⟨k, v⟩ := p
    obtain ⟨hk, hv⟩ := hb (k, v) (by simp)
    simp only at hk hv
    have hbrs : ∀ r ∈ rs, boundedRec r := fun r hr => hb r (by simp [hr])
    rw [encodeRecords_cons, encodeRecord_eq] at hfuel ⊢
    simp only [List.cons_append, List.length_cons, List.append_assoc] at hfuel ⊢
    match fuel with
    | 0 => omega
    | fuel + 1 =>
      have hfrs : (encodeRecords rs).length ≤ fuel := by
        simp at hfuel ⊢; omega
      simp only [deleteAuxF, dec16_enc16 hk, dec16_enc16 hv, List.append_eq]
      simp only [keepRecs, delErr]
      by_cases hC : aKey = k ∧ (aIndex = 0 ∨ aIndex = -1)
      · rw [if_pos hC, if_pos hC, if_pos hC]
        rw [List.drop_append_of_le_length le_rfl, List.drop_length,
          List.nil_append]
        exact ih fuel aIndex OtError.NONE swap wrem hfrs hbrs
      · rw [if_neg hC, if_neg hC, if_neg hC]
        have hkeeplen :
            (encodeRecords ((k, v) ::
              keepRecs aKey (if aKey = k then aIndex - 1 else aIndex) rs)).length =
            4 + v.length +
              (encodeRecords
                (keepRecs aKey (if aKey = k then aIndex - 1 else aIndex)
                  rs)).length := by
          rw [encodeRecords_cons, List.length_append, encodeRecord_length]
        constructor
        · intro hdem
          rw [hkeeplen] at hdem
          rw [if_pos (show min 2 wrem = 2 by omega),
            if_pos (show min 2 (wrem - 2) = 2 by omega)]
          rw [copyAuxF_ample junk v.length v.length _ _ (wrem - 4) (by omega)]
          rw [copyAux_exact junk v.length v.length _ _ le_rfl (by simp)]
          rw [List.take_append_of_le_length le_rfl, List.take_length,
            List.drop_append_of_le_length le_rfl, List.drop_length,
            List.nil_append]
          simp only [Option.map]
          rw [(ih fuel (if aKey = k then aIndex - 1 else aIndex) error
            (swap ++ enc16 k ++ enc16 v.length ++ v) (wrem - 4 - v.length)
            hfrs hbrs).1 (by omega)]
          rw [encodeRecords_cons, encodeRecord_eq]
          simp [enc16, List.append_assoc]
        · intro hlt
          rw [hkeeplen] at hlt
          by_cases h2 : 2 ≤ wrem
          · by_cases h4 : 4 ≤ wrem
            · rw [if_pos (show min 2 wrem = 2 by omega),
                if_pos (show min 2 (wrem - 2) = 2 by omega)]
              by_cases hcv : v.length ≤ wrem - 4
              · rw [copyAuxF_ample junk v.length v.length _ _ (wrem - 4)
                  (by omega)]
                rw [copyAux_exact junk v.length v.length _ _ le_rfl (by simp)]
                rw [List.take_append_of_le_length le_rfl, List.take_length,
                  List.drop_append_of_le_length le_rfl, List.drop_length,
                  List.nil_append]
                simp only [Option.map]
                exact (ih fuel (if aKey = k then aIndex - 1 else aIndex) error
                  (swap ++ enc16 k ++ enc16 v.length ++ v)
                  (wrem - 4 - v.length) hfrs hbrs).2 (by omega)
              · rw [copyAuxF_short_write junk v.length v.length _ _ (wrem - 4)
                  le_rfl (by simp) (by omega)]
                exact ⟨error, rfl⟩
            · rw [if_pos (show min 2 wrem = 2 by omega),
                if_neg (show ¬ min 2 (wrem - 2) = 2 by omega)]
              exact ⟨error, rfl⟩
          · rw [if_neg (show ¬ min 2 wrem = 2 by omega)]
            exact ⟨error, rfl⟩

/-- C4 counterexample: the claim says an unexpected short read during the
rebuild aborts before the rename, leaving the live store unchanged.  On a
store whose record declares 5 payload bytes while only 3 remain, the chunked
copy's read returns 3 bytes — short but non-zero, so the `rval > 0` guard
passes — the write still emits 5 bytes (padding from the stale buffer), the
loop completes, and the rename installs the swap: the live store changes. -/
theorem C4_counterexample :
    (otPosixSecureSettingsDelete 0 [2, 0, 5, 0, 10, 11, 12] 1 (-1)).2 ≠
      [2, 0, 5, 0, 10, 11, 12] := by decide

/-- C4 amended: an I/O failure while delete rebuilds the store into the
temporary file aborts before the rename step, leaving the live store bytes
unchanged, in each failure mode: a short header read (first conjunct); a
payload chunk read returning zero bytes — for any occurrence index, matching
or non-matching key, single- or multi-chunk record (second conjunct); and a
short write of a header or payload chunk to the temporary file, modelled by
a swap file that can accept only `wrem` more bytes (third conjunct: with
room for every byte the rebuild writes, the run coincides with the
infallible one, and with less room some write check fails, the loop jumps to
exit and the live store keeps its bytes).  The one point where the original
claim fails — see the counterexample — is a short but non-zero payload chunk
read, which escapes the `rval > 0` guard, so the rebuild continues with
stale-buffer padding and the rename still occurs. -/
theorem C4_abort_before_rename (junk aKey : Nat) (aIndex : Int) :
    (∀ (rs : List (Nat × List Nat)) (bad : List Nat),
      (∀ r ∈ rs, boundedRec r) → bad ≠ [] → bad.length < 4 →
      (otPosixSecureSettingsDelete junk (encodeRecords rs ++ bad) aKey
          aIndex).2 = encodeRecords rs ++ bad) ∧
    (∀ (rs : List (Nat × List Nat)) (bk bl : Nat) (bt : List Nat),
      (∀ r ∈ rs, boundedRec r) → bk < 65536 → bl < 65536 → 0 < bl →
      bt.length ≤ 512 * ((bl - 1) / 512) →
      ¬(aKey = bk ∧ (residIdx aKey aIndex rs = 0 ∨
          residIdx aKey aIndex rs = -1)) →
      (otPosixSecureSettingsDelete junk
          (encodeRecords rs ++ (enc16 bk ++ enc16 bl ++ bt)) aKey aIndex).2 =
        encodeRecords rs ++ (enc16 bk ++ enc16 bl ++ bt)) ∧
    (∀ (s : List Nat) (wrem : Nat), encodeRecords (parseRecords s) = s →
      ((encodeRecords (keepRecs aKey aIndex (parseRecords s))).length ≤ wrem →
        otPosixSecureSettingsDeleteF junk s aKey aIndex wrem =
          otPosixSecureSettingsDelete junk s aKey aIndex) ∧
      (wrem < (encodeRecords (keepRecs aKey aIndex (parseRecords s))).length →
        (∃ e, deleteAuxF junk aKey s.length aIndex OtError.NOT_FOUND [] s wrem =
            DeleteOutcome.aborted e) ∧
        (otPosixSecureSettingsDeleteF junk s aKey aIndex wrem).2 = s)) := by
  refine ⟨?_, ?_, ?_⟩
  · intro rs bad hb hne hlen4
    unfold otPosixSecureSettingsDelete
    rw [deleteAux_append junk aKey bad rs _ aIndex OtError.NOT_FOUND [] le_rfl hb]
    rw [deleteAux_short junk aKey _ _ _ _ bad hne hlen4]
  · intro rs bk bl bt hb hbk hbl hblpos hbt hns
    unfold otPosixSecureSettingsDelete
    rw [deleteAux_append junk aKey _ rs _ aIndex OtError.NOT_FOUND [] le_rfl hb]
    have hfuel : 1 ≤ (encodeRecords rs ++ (enc16 bk ++ enc16 bl ++ bt)).length -
        rs.length := by
      have h1 := length_le_encodeRecords_length rs
      simp only [List.length_append, enc16, List.length_cons]
      simp
      omega
    obtain ⟨f, hf⟩ : ∃ f,
        (encodeRecords rs ++ (enc16 bk ++ enc16 bl ++ bt)).length - rs.length =
          f + 1 :=
      ⟨(encodeRecords rs ++ (enc16 bk ++ enc16 bl ++ bt)).length - rs.length - 1,
       by omega⟩
    rw [hf, deleteAux_overrun_zero_read junk aKey f (residIdx aKey aIndex rs) _ _
      bk bl bt hbk hbl hblpos hbt hns]
  · intro s wrem hwf
    have h3 := deleteAuxF_wf junk aKey (parseRecords s) s.length aIndex
      OtError.NOT_FOUND [] wrem (by rw [hwf]) (parseRecords_bounded s)
    rw [hwf] at h3
    simp only [List.nil_append] at h3
    constructor
    · intro hdem
      have hc := h3.1 hdem
      unfold otPosixSecureSettingsDeleteF
      rw [hc, delete_wf junk s aKey aIndex hwf]
    · intro hlt
      obtain ⟨e, he⟩ := h3.2 hlt
      refine ⟨⟨e, he⟩, ?_⟩
      unfold otPosixSecureSettingsDeleteF
      rw [he]

/-- C4 witness: a partial header after a well-formed record; a zero-byte
chunk read on a matching-key multi-chunk overrun record with a positive
countdown; and the fallible swap running a delete to completion with exact
room (5 bytes) but aborting with the store untouched when only 3 bytes fit. -/
theorem C4_abort_before_rename_witness :
    (otPosixSecureSettingsDelete 0 (encodeRecords [(7, [9])] ++ [3]) 1 5).2 =
      encodeRecords [(7, [9])] ++ [3] ∧
    (otPosixSecureSettingsDelete 0
        (encodeRecords [(1, [65])] ++ (enc16 1 ++ enc16 600 ++ [1, 2, 3]))
        1 5).2 =
      encodeRecords [(1, [65])] ++ (enc16 1 ++ enc16 600 ++ [1, 2, 3]) ∧
    otPosixSecureSettingsDeleteF 0 [1, 0, 1, 0, 65] 2 5 5 =
      otPosixSecureSettingsDelete 0 [1, 0, 1, 0, 65] 2 5 ∧
    (otPosixSecureSettingsDeleteF 0 [1, 0, 1, 0, 65] 2 5 3).2 =
      [1, 0, 1, 0, 65] :=
  ⟨(C4_abort_before_rename 0 1 5).1 [(7, [9])] [3] (by norm_num [boundedRec])
      (by decide) (by decide),
   (C4_abort_before_rename 0 1 5).2.1 [(1, [65])] 1 600 [1, 2, 3]
      (by norm_num [boundedRec]) (by decide) (by decide) (by decide)
      (by decide) (by decide),
   ((C4_abort_before_rename 0 2 5).2.2 [1, 0, 1, 0, 65] 5 (by decide)).1
      (by decide),
   (((C4_abort_before_rename 0 2 5).2.2 [1, 0, 1, 0, 65] 3 (by decide)).2
      (by decide)).2⟩
